import Mathlib

/-!
Verification of the task aggregation / snooze pipeline of the
logseq-power-of-now plugin.  The TypeScript utility functions are embedded
shallowly: block text is `String` (processed as `List Char`), timestamps are
`Int` epoch milliseconds (the host's local timezone is modelled as UTC, with
day boundaries at multiples of 86400000 ms), and the regex scans of the
source are implemented as deterministic character scanners (each regex used
by the source is backtracking-free because every repeated character class is
disjoint from the character that must follow it).
-/

namespace PowerOfNow

/-! ## Character classes (JS regex classes over the ASCII range) -/

/-- JS whitespace (the characters relevant to `\s` and `String.trim`). -/
def jsIsWs (c : Char) : Bool :=
  c == ' ' || c == '\t' || c == '\n' || c == '\r' || c == '\x0b' || c == '\x0c'

/-- `\d` -/
def isDigitCh (c : Char) : Bool := '0' ≤ c && c ≤ '9'

/-- `\w` (ASCII word character) -/
def isWordCh (c : Char) : Bool :=
  isDigitCh c || ('a' ≤ c && c ≤ 'z') || ('A' ≤ c && c ≤ 'Z') || c == '_'

/-- `[a-f0-9-]` — the block-reference uuid character class -/
def isRefCh (c : Char) : Bool := isDigitCh c || ('a' ≤ c && c ≤ 'f') || c == '-'

/-- `[\d:]` -/
def isDigitColon (c : Char) : Bool := isDigitCh c || c == ':'

/-- `[\d-]` -/
def isDigitDash (c : Char) : Bool := isDigitCh c || c == '-'

/-- Numeric value of a digit string (JS `parseInt` on an all-digit match). -/
def digitsToNat (ds : List Char) : Nat :=
  ds.foldl (fun n c => n * 10 + (c.toNat - 48)) 0

/-- `String.prototype.trim` on a character list (drop JS whitespace at both ends). -/
def trimChars (l : List Char) : List Char :=
  ((l.dropWhile jsIsWs).reverse.dropWhile jsIsWs).reverse

/-! ## Generic global-regex scanners (fuel-driven so they kernel-evaluate).

`scrub m` models `String.prototype.replace(re, "")` with a global regex:
at each position the matcher `m` either recognises a match (returning the
rest of the input after the match, which it must make strictly shorter) and
the scan resumes there, or the scan advances one character.  `harvest m`
models `matchAll`, collecting a payload per match.  Fuel bounds the number
of scan steps; `cs.length` always suffices because every step consumes at
least one character. -/

def scrub (m : List Char → Option (List Char)) : Nat → List Char → List Char
  | 0, cs => cs
  | _ + 1, [] => []
  | fuel + 1, c :: cs =>
    match m (c :: cs) with
    | some r => scrub m fuel r
    | none => c :: scrub m fuel cs

def harvest {α : Type} (m : List Char → Option (α × List Char)) :
    Nat → List Char → List α
  | 0, _ => []
  | _ + 1, [] => []
  | fuel + 1, c :: cs =>
    match m (c :: cs) with
    | some (a, r) => a :: harvest m fuel r
    | none => harvest m fuel cs

/-- First match of an anchored matcher anywhere in the input
(JS `String.prototype.match` with a non-global regex). -/
def firstMatch {α : Type} (m : List Char → Option α) : List Char → Option α
  | [] => none
  | c :: cs =>
    match m (c :: cs) with
    | some a => some a
    | none => firstMatch m cs

/-- Case-insensitive literal prefix: drops `w` from the head of `cs` if it
matches ignoring case. -/
def dropPrefixCi : List Char → List Char → Option (List Char)
  | [], cs => some cs
  | _ :: _, [] => none
  | w :: ws, c :: cs => if w.toLower == c.toLower then dropPrefixCi ws cs else none

/-- Literal (case-sensitive) prefix drop. -/
def dropPrefixLit : List Char → List Char → Option (List Char)
  | [], cs => some cs
  | _ :: _, [] => none
  | w :: ws, c :: cs => if w == c then dropPrefixLit ws cs else none

/-- Take exactly `n` characters satisfying `p`; the `(n+1)`-st character of a
longer run makes the following literal fail exactly as in the regexes of the
source, which always follow an exact-count digit group with a non-digit
literal. -/
def takeExact (p : Char → Bool) : Nat → List Char → Option (List Char × List Char)
  | 0, cs => some ([], cs)
  | _ + 1, [] => none
  | n + 1, c :: cs =>
    if p c then (takeExact p n cs).map (fun x => (c :: x.1, x.2)) else none

/-! ## Content parser: `getDisplayText` (src/utils/taskUtils.ts)

The source applies six `replace` passes and a `trim`:
marker, priority `[#A]`, `:LOGBOOK: ... :END:`, inline `[...]` timestamps,
`SCHEDULED: <...>`, `DEADLINE: <...>`. -/

/-- One pass of `^(NOW|TODO|LATER|WAITING)\s*` (anchored, case-insensitive,
non-global): strip the task marker and following whitespace run. -/
def stripMarker (cs : List Char) : List Char :=
  match dropPrefixCi "NOW".toList cs with
  | some r => r.dropWhile jsIsWs
  | none =>
    match dropPrefixCi "TODO".toList cs with
    | some r => r.dropWhile jsIsWs
    | none =>
      match dropPrefixCi "LATER".toList cs with
      | some r => r.dropWhile jsIsWs
      | none =>
        match dropPrefixCi "WAITING".toList cs with
        | some r => r.dropWhile jsIsWs
        | none => cs

/-- `[ABCabc]` — the priority letter class of `\[#[ABC]\]` with the `i` flag. -/
def prioChar (c : Char) : Bool :=
  c == 'A' || c == 'B' || c == 'C' || c == 'a' || c == 'b' || c == 'c'

/-- Matcher for `\[#[ABC]\]\s*` at the head of the input. -/
def matchPrio : List Char → Option (List Char)
  | '[' :: '#' :: c :: ']' :: rest =>
    if prioChar c then some (rest.dropWhile jsIsWs) else none
  | _ => none

/-- Index just past the first occurrence of the literal `pat`, if any. -/
def findPast (pat : List Char) : List Char → Option Nat
  | [] => if pat.isEmpty then some 0 else none
  | c :: cs =>
    match dropPrefixLit pat (c :: cs) with
    | some _ => some pat.length
    | none => (findPast pat cs).map (· + 1)

/-- Matcher for `:LOGBOOK:[\s\S]*?:END:` at the head of the input (lazy body:
the nearest following `:END:` closes the match). -/
def matchLogbook (cs : List Char) : Option (List Char) :=
  match dropPrefixLit ":LOGBOOK:".toList cs with
  | some body =>
    match findPast ":END:".toList body with
    | some k => some (body.drop k)
    | none => none
  | none => none

/-- Matcher for an inline timestamp `\[[\d-]+\s+\w+\s+[\d:]+\]` at the head of
the input. -/
def matchStamp : List Char → Option (List Char)
  | '[' :: t1 =>
    let a := t1.takeWhile isDigitDash
    let t2 := t1.dropWhile isDigitDash
    if a.isEmpty then none else
    let b := t2.takeWhile jsIsWs
    let t3 := t2.dropWhile jsIsWs
    if b.isEmpty then none else
    let c := t3.takeWhile isWordCh
    let t4 := t3.dropWhile isWordCh
    if c.isEmpty then none else
    let d := t4.takeWhile jsIsWs
    let t5 := t4.dropWhile jsIsWs
    if d.isEmpty then none else
    let e := t5.takeWhile isDigitColon
    let t6 := t5.dropWhile isDigitColon
    if e.isEmpty then none else
    match t6 with
    | ']' :: r => some r
    | _ => none
  | _ => none

/-- Matcher for `SCHEDULED:\s*<[^>]+>` (resp. `DEADLINE:`) at the head of the
input. -/
def matchAngleLine (kw : List Char) (cs : List Char) : Option (List Char) :=
  match dropPrefixLit kw cs with
  | some r0 =>
    match r0.dropWhile jsIsWs with
    | '<' :: r1 =>
      let body := r1.takeWhile (fun c => !(c == '>'))
      let r2 := r1.dropWhile (fun c => !(c == '>'))
      if body.isEmpty then none else
      match r2 with
      | '>' :: r => some r
      | _ => none
    | _ => none
  | none => none

/-- The six stripping passes of `getDisplayText`, in source order. -/
def stripPasses (cs : List Char) : List Char :=
  let s1 := stripMarker cs
  let s2 := scrub matchPrio s1.length s1
  let s3 := scrub matchLogbook s2.length s2
  let s4 := scrub matchStamp s3.length s3
  let s5 := scrub (matchAngleLine "SCHEDULED:".toList) s4.length s4
  scrub (matchAngleLine "DEADLINE:".toList) s5.length s5

/-- `getDisplayText` (src/utils/taskUtils.ts): strips the task marker,
priority markers, LOGBOOK sections, inline timestamps and SCHEDULED/DEADLINE
annotations, then trims. -/
def getDisplayText (s : String) : String :=
  String.mk (trimChars (stripPasses s.data))

/-! ## Dates: epoch milliseconds and the civil calendar.

`new Date(y, m, d, hh, mm, ss).getTime()` is embedded with the proleptic
Gregorian calendar (days-from-civil) and the host timezone taken as UTC.
JS normalises out-of-range month/day/time fields by plain arithmetic, and
maps years 0..99 to 1900..1999. -/

def msPerMin : Int := 60000
def msPerHour : Int := 3600000
def msPerDay : Int := 86400000

/-- Days since 1970-01-01 of the civil date `y-m-d` (`m` in 1..12, `d` 1-based). -/
def daysFromCivil (y m d : Int) : Int :=
  let y' := y - (if m ≤ 2 then 1 else 0)
  let era := Int.fdiv y' 400
  let yoe := y' - era * 400
  let doy := Int.fdiv (153 * (m + (if m > 2 then -3 else 9)) + 2) 5 + d - 1
  let doe := yoe * 365 + Int.fdiv yoe 4 - Int.fdiv yoe 100 + doy
  era * 146097 + doe - 719468

/-- `new Date(year, month0, day, hour, minute, second).getTime()` with the
local timezone modelled as UTC (`month0` is 0-based as in JS). -/
def newDateMs (year month0 day hour minute second : Int) : Int :=
  let y0 := if 0 ≤ year ∧ year ≤ 99 then year + 1900 else year
  let ym := y0 + Int.fdiv month0 12
  let mm := Int.emod month0 12 + 1
  (daysFromCivil ym mm 1 + (day - 1)) * msPerDay
    + hour * msPerHour + minute * msPerMin + second * 1000

/-- `Math.round(num / den)` for integer `num` and positive integer `den`
(JS rounds half toward positive infinity). -/
def jsRound (num den : Int) : Int := Int.fdiv (2 * num + den) (2 * den)

/-- `isSameDay` (src/utils/scheduling.ts): same local calendar day. -/
def sameDay (a b : Int) : Bool := Int.fdiv a msPerDay == Int.fdiv b msPerDay

/-- `formatRelativeDate` (src/utils/scheduling.ts): bucket the signed
distance from `nowMs` to `dateMs` into a human-readable label. -/
def formatRelativeDate (dateMs nowMs : Int) : String :=
  let diffMs := dateMs - nowMs
  let diffMins := jsRound diffMs msPerMin
  let diffHours := jsRound diffMs msPerHour
  let diffDays := jsRound diffMs msPerDay
  let isFuture := diffMs > 0
  if diffMins.natAbs < 60 then
    if diffMins.natAbs ≤ 1 then "now"
    else if isFuture then "in " ++ toString diffMins ++ "m"
    else toString diffMins.natAbs ++ "m ago"
  else if diffHours.natAbs < 24 then
    if isFuture then "in " ++ toString diffHours ++ "h"
    else toString diffHours.natAbs ++ "h ago"
  else if sameDay dateMs (nowMs + msPerDay) then "tomorrow"
  else if sameDay dateMs (nowMs - msPerDay) then "yesterday"
  else if sameDay dateMs nowMs then "today"
  else if diffDays.natAbs < 7 then
    if isFuture then "in " ++ toString diffDays ++ "d"
    else toString diffDays.natAbs ++ "d ago"
  else
    let diffWeeks := jsRound diffDays 7
    if diffWeeks.natAbs < 4 then
      if isFuture then "in " ++ toString diffWeeks ++ "w"
      else toString diffWeeks.natAbs ++ "w ago"
    else
      let diffMonths := jsRound diffDays 30
      if isFuture then "in " ++ toString diffMonths ++ "mo"
      else toString diffMonths.natAbs ++ "mo ago"

/-! ## `parseScheduledDate` (src/utils/scheduling.ts)

Regex `SCHEDULED:\s*<(\d{4})-(\d{2})-(\d{2})\s+\w+(?:\s+(\d{2}):(\d{2}))?>`,
first match anywhere in the content. -/

/-- Try the SCHEDULED pattern at the head of the input, returning the
timestamp built exactly as the source does
(`new Date(y, month-1, d, hour, minute)`, time defaulting to `00:00`). -/
def matchSchedAt (cs : List Char) : Option Int :=
  match dropPrefixLit "SCHEDULED:".toList cs with
  | none => none
  | some r0 =>
    match r0.dropWhile jsIsWs with
    | '<' :: r1 =>
      match takeExact isDigitCh 4 r1 with
      | none => none
      | some (ys, r2) =>
        match r2 with
        | '-' :: r3 =>
          match takeExact isDigitCh 2 r3 with
          | none => none
          | some (ms, r4) =>
            match r4 with
            | '-' :: r5 =>
              match takeExact isDigitCh 2 r5 with
              | none => none
              | some (ds, r6) =>
                let w1 := r6.takeWhile jsIsWs
                let r7 := r6.dropWhile jsIsWs
                if w1.isEmpty then none else
                let day := r7.takeWhile isWordCh
                let r8 := r7.dropWhile isWordCh
                if day.isEmpty then none else
                let y : Int := digitsToNat ys
                let mo : Int := digitsToNat ms
                let d : Int := digitsToNat ds
                -- optional `(?:\s+(\d{2}):(\d{2}))?` then `>`
                let timePart :=
                  let w2 := r8.takeWhile jsIsWs
                  let r9 := r8.dropWhile jsIsWs
                  if w2.isEmpty then none else
                  match takeExact isDigitCh 2 r9 with
                  | none => none
                  | some (hs, r10) =>
                    match r10 with
                    | ':' :: r11 =>
                      match takeExact isDigitCh 2 r11 with
                      | none => none
                      | some (mins, r12) =>
                        match r12 with
                        | '>' :: _ =>
                          some (newDateMs y (mo - 1) d (digitsToNat hs) (digitsToNat mins) 0)
                        | _ => none
                    | _ => none
                match timePart with
                | some t => some t
                | none =>
                  match r8 with
                  | '>' :: _ => some (newDateMs y (mo - 1) d 0 0 0)
                  | _ => none
            | _ => none
        | _ => none
    | _ => none

/-- `parseScheduledDate`: timestamp of the first `SCHEDULED: <...>` marker in
the content, or `none`. -/
def parseScheduledDate (content : String) : Option Int :=
  firstMatch matchSchedAt content.data

/-! ## Priority (src/utils/priority.ts) and comparators
(src/utils/taskComparators.ts) -/

/-- `getPriority`: first `\[#[ABC]\]` match (case-insensitive), uppercased. -/
def scanPriority : List Char → Option Char
  | [] => none
  | '[' :: '#' :: c :: ']' :: rest =>
    if prioChar c then some c.toUpper else scanPriority ('#' :: c :: ']' :: rest)
  | _ :: rest => scanPriority rest

def getPriority (content : String) : Option Char := scanPriority content.data

/-- `priorityOrder`: A=1, B=2, C=3, none=4 (lower sorts first). -/
def priorityOrder : Option Char → Int
  | some 'A' => 1
  | some 'B' => 2
  | some 'C' => 3
  | _ => 4

/-- `comparePriority` on the two contents. -/
def comparePriority (a b : String) : Int :=
  priorityOrder (getPriority a) - priorityOrder (getPriority b)

/-- `compareScheduledDate`: soonest first, unscheduled last, two unscheduled
compare equal. -/
def compareScheduledDate (a b : String) : Int :=
  match parseScheduledDate a, parseScheduledDate b with
  | some x, some y => x - y
  | some _, none => -1
  | none, some _ => 1
  | none, none => 0

/-- `compareWaitingTasks`: priority first, then scheduled date. -/
def compareWaitingTasks (a b : String) : Int :=
  let priorityDiff := comparePriority a b
  if priorityDiff ≠ 0 then priorityDiff else compareScheduledDate a b

/-! ## Time tracking (src/utils/timeTracking.ts)

`getActiveClockStartTime` scans for
`CLOCK:\s*(\[\d{4}-\d{2}-\d{2}\s+\w+\s+\d{2}:\d{2}(?::\d{2})?\])(?!\s*--)`
globally and returns the start time of the last match; the captured group is
then parsed with `new Date(y, m-1, d, hh, mm, ss)`. -/

/-- Negative lookahead `(?!\s*--)`: succeeds when the input after an optional
whitespace run does not continue with `--`. -/
def noDashDashAhead (cs : List Char) : Bool :=
  match cs.dropWhile jsIsWs with
  | '-' :: '-' :: _ => false
  | _ => true

/-- Matcher for one clock entry at the head of the input; payload is the
start timestamp in ms. -/
def matchClock (cs : List Char) : Option (Int × List Char) :=
  match dropPrefixLit "CLOCK:".toList cs with
  | none => none
  | some r0 =>
    match r0.dropWhile jsIsWs with
    | '[' :: r1 =>
      match takeExact isDigitCh 4 r1 with
      | none => none
      | some (ys, r2) =>
        match r2 with
        | '-' :: r3 =>
          match takeExact isDigitCh 2 r3 with
          | none => none
          | some (mos, r4) =>
            match r4 with
            | '-' :: r5 =>
              match takeExact isDigitCh 2 r5 with
              | none => none
              | some (ds, r6) =>
                let w1 := r6.takeWhile jsIsWs
                let r7 := r6.dropWhile jsIsWs
                if w1.isEmpty then none else
                let day := r7.takeWhile isWordCh
                let r8 := r7.dropWhile isWordCh
                if day.isEmpty then none else
                let w2 := r8.takeWhile jsIsWs
                let r9 := r8.dropWhile jsIsWs
                if w2.isEmpty then none else
                match takeExact isDigitCh 2 r9 with
                | none => none
                | some (hs, r10) =>
                  match r10 with
                  | ':' :: r11 =>
                    match takeExact isDigitCh 2 r11 with
                    | none => none
                    | some (mins, r12) =>
                      let finish (sec : Nat) (rest : List Char) : Option (Int × List Char) :=
                        if noDashDashAhead rest then
                          some (newDateMs (digitsToNat ys) ((digitsToNat mos : Int) - 1)
                            (digitsToNat ds) (digitsToNat hs) (digitsToNat mins) sec, rest)
                        else none
                      match r12 with
                      | ':' :: r13 =>
                        match takeExact isDigitCh 2 r13 with
                        | none => none
                        | some (ss, r14) =>
                          match r14 with
                          | ']' :: rest => finish (digitsToNat ss) rest
                          | _ => none
                      | ']' :: rest => finish 0 rest
                      | _ => none
                  | _ => none
            | _ => none
        | _ => none
    | _ => none

/-- All open clock entries of the content, in order of appearance. -/
def clockMatches (content : String) : List Int :=
  harvest matchClock content.data.length content.data

/-- `getActiveClockStartTime`: start time of the last open clock entry. -/
def getActiveClockStartTime (content : String) : Option Int :=
  (clockMatches content).getLast?

/-- `getElapsedTimeFromContent`: `now - start`, or 0 when no clock is open. -/
def getElapsedTimeFromContent (content : String) (now : Int) : Int :=
  match getActiveClockStartTime content with
  | none => 0
  | some startTime => now - startTime

/-! ## Snooze codec (src/utils/snooze.ts) -/

structure SnoozeInfo where
  untilTs : Int
  createdAt : Int
deriving DecidableEq

/-- `isResurfaced`: the snooze deadline lies strictly in the past. -/
def isResurfaced (info : SnoozeInfo) (now : Int) : Bool :=
  decide (info.untilTs < now)

/-- The shorthand unit alternation
`(m|min|mins|minutes?|h|hr|hrs|hours?|d|days?|w|wk|wks|weeks?)`. -/
def snoozeUnits : List String :=
  ["m", "min", "mins", "minute", "minutes",
   "h", "hr", "hrs", "hour", "hours",
   "d", "day", "days",
   "w", "wk", "wks", "week", "weeks"]

/-- `parseSnoozeInput`: trim/lowercase, try the anchored shorthand
`^(\d+)\s*(unit)$`, otherwise delegate to the natural-language parser
(`chrono-node`, an external collaborator passed in as a function). -/
def parseSnoozeInput (chrono : String → Option Int) (input : String) (now : Int) :
    Option Int :=
  if (trimChars input.data).isEmpty then none else
  let trimmed := (trimChars input.data).map Char.toLower
  let ds := trimmed.takeWhile isDigitCh
  let unit := (trimmed.dropWhile isDigitCh).dropWhile jsIsWs
  let shorthandOk := !ds.isEmpty && snoozeUnits.contains (String.mk unit)
  if shorthandOk then
    let value : Int := digitsToNat ds
    match unit with
    | 'm' :: _ => some (now + value * 60 * 1000)
    | 'h' :: _ => some (now + value * 60 * 60 * 1000)
    | 'd' :: _ => some (now + value * 24 * 60 * 60 * 1000)
    | 'w' :: _ => some (now + value * 7 * 24 * 60 * 60 * 1000)
    | _ => chrono input
  else chrono input

/-- `getSnoozeDisplayText`: "Resurfaced X ago" once resurfaced, otherwise the
pending countdown label. -/
def getSnoozeDisplayText (info : SnoozeInfo) (now : Int) : String :=
  if isResurfaced info now then
    "Resurfaced " ++ formatRelativeDate info.untilTs now
  else
    formatRelativeDate info.untilTs now

/-! ## Hierarchy reconciler (src/utils/hierarchyUtils.ts) -/

/-- `BaseTask`: flat task with optional tree-parent info. -/
structure BaseTask where
  uuid : String
  content : String
  parentUuid : Option String := none
  parentContent : Option String := none
deriving DecidableEq

/-- `TaskWithContext`: a task surviving deduplication, with the inherited
parent context added (the spread `{ ...task, parentContext }`). -/
structure TaskWithContext where
  base : BaseTask
  parentContext : Option String
deriving DecidableEq

/-- Matcher for one block reference `\(\(([a-f0-9-]{36})\)\)`; payload is the
captured uuid. -/
def matchRef : List Char → Option (String × List Char)
  | '(' :: '(' :: rest =>
    let u := rest.take 36
    if u.length == 36 && u.all isRefCh then
      match rest.drop 36 with
      | ')' :: ')' :: r => some (String.mk u, r)
      | _ => none
    else none
  | _ => none

/-- `extractBlockReferences`: all `((uuid))` references, in order. -/
def extractBlockReferences (content : String) : List String :=
  harvest matchRef content.data.length content.data

/-- `isOnlyBlockReference`: the trimmed content is exactly one `((uuid))`. -/
def isOnlyBlockReference (content : String) : Option String :=
  match trimChars content.data with
  | '(' :: '(' :: rest =>
    let u := rest.take 36
    if u.length == 36 && u.all isRefCh && rest.drop 36 == [')', ')'] then
      some (String.mk u)
    else none
  | _ => none

/-- `Set.add` on a membership-list (JS sets are insertion-ordered and
duplicate-free). -/
def setInsert (s : List String) (x : String) : List String :=
  if s.contains x then s else s ++ [x]

/-- `Map.has` on an association list. -/
def alHas (m : List (String × String)) (k : String) : Bool :=
  (m.find? (fun p => p.1 == k)).isSome

/-- `Map.get` on an association list. -/
def alGet (m : List (String × String)) (k : String) : Option String :=
  (m.find? (fun p => p.1 == k)).map (fun p => p.2)

/-- `Map.set` on an association list (overwrites in place, JS maps keep the
original insertion position on overwrite). -/
def alSet (m : List (String × String)) (k v : String) : List (String × String) :=
  if alHas m k then m.map (fun p => if p.1 == k then (k, v) else p)
  else m ++ [(k, v)]

/-- The mutable loop state of `deduplicateHierarchy`: the
`parentsWithChildren` set and the `childToParent` map. -/
structure DedupState where
  parents : List String
  childToParent : List (String × String)
deriving DecidableEq

/-- The body of the inner `for (const refUuid of refs)` loop of
`deduplicateHierarchy`: a task referencing another task in the list becomes
a hidden parent, the referenced task its child. -/
def refStep (uuids : List String) (t : BaseTask) (s : DedupState) (refUuid : String) :
    DedupState :=
  if uuids.contains refUuid then
    { parents := setInsert s.parents t.uuid,
      childToParent :=
        if alHas s.childToParent refUuid then s.childToParent
        else alSet s.childToParent refUuid t.uuid }
  else s

/-- The `parentIsTask` test of the loop body: the task's tree parent exists
and is itself a task of the list. -/
def parentIsTask (uuids : List String) (t : BaseTask) : Bool :=
  match t.parentUuid with
  | some pu => uuids.contains pu
  | none => false

/-- The tree-hierarchy rule of the loop body: a task whose tree parent is in
the list hides that parent and records the child→parent edge. -/
def ruleTree (uuids : List String) (st : DedupState) (t : BaseTask) : DedupState :=
  match t.parentUuid with
  | some pu =>
    if uuids.contains pu then
      { parents := setInsert st.parents pu,
        childToParent := alSet st.childToParent t.uuid pu }
    else st
  | none => st

/-- The parent-content only-reference rule of the loop body: when the
(non-task) parent block's content is exactly `((refUuid))` for a task of the
list, that task becomes the effective hidden parent. -/
def ruleParentRef (uuids : List String) (st : DedupState) (t : BaseTask) : DedupState :=
  match t.parentContent with
  | some pc =>
    if parentIsTask uuids t then st
    else
      match isOnlyBlockReference pc with
      | some refUuid =>
        if uuids.contains refUuid then
          { parents := setInsert st.parents refUuid,
            childToParent :=
              if alHas st.childToParent t.uuid then st.childToParent
              else alSet st.childToParent t.uuid refUuid }
        else st
      | none => st
  | none => st

/-- One iteration of the `for (const task of tasks)` loop of
`deduplicateHierarchy`: the tree-hierarchy rule, the parent-content
only-reference rule, then the outgoing-reference rule over all the task's
block references. -/
def processTask (uuids : List String) (st : DedupState) (t : BaseTask) : DedupState :=
  (extractBlockReferences t.content).foldl (refStep uuids t)
    (ruleParentRef uuids (ruleTree uuids st t) t)

/-- Spec-side description of the "parent-to-hide" rules (section 4.3 of the
specification): a uuid `u` is to be hidden because of task `t` when (a) `t`'s
tree parent is `u` and `u` belongs to the list, or (b) `t` itself is `u` and
`t`'s content references some task of the list, or (c) `t`'s parent block
content is exactly a reference to `u`, `u` belongs to the list, and `t`'s
tree parent is not in the list.  Rule (a): `t`'s tree parent is `u`, a task
of the list. -/
def trigTree (uuids : List String) (t : BaseTask) (u : String) : Bool :=
  match t.parentUuid with
  | some pu => pu == u && uuids.contains pu
  | none => false

/-- Rule (b): `t` is `u` itself and its content references a task of the
list. -/
def trigRef (uuids : List String) (t : BaseTask) (u : String) : Bool :=
  t.uuid == u && (extractBlockReferences t.content).any (fun r => uuids.contains r)

/-- Rule (c): `t`'s parent block is not a listed task and its content is
exactly a reference to the listed task `u`. -/
def trigParentRef (uuids : List String) (t : BaseTask) (u : String) : Bool :=
  match t.parentContent with
  | some pc =>
    !parentIsTask uuids t
    && (match isOnlyBlockReference pc with
        | some r => r == u && uuids.contains r
        | none => false)
  | none => false

def hideTrigger (uuids : List String) (t : BaseTask) (u : String) : Bool :=
  trigTree uuids t u || trigRef uuids t u || trigParentRef uuids t u

/-- Spec-side "parent-to-hide" set: some task of the list triggers one of the
three hiding rules for `u`. -/
def specHidden (tasks : List BaseTask) (u : String) : Bool :=
  tasks.any (fun t => hideTrigger (tasks.map (fun t' => t'.uuid)) t u)

/-- The uuid list of the input (`taskUuids`). -/
def dedupUuids (tasks : List BaseTask) : List String := tasks.map (fun t => t.uuid)

/-- The final loop state over the whole input. -/
def dedupState (tasks : List BaseTask) : DedupState :=
  tasks.foldl (processTask (dedupUuids tasks)) ⟨[], []⟩

/-- `taskByUuid.get`: the `Map` built from `tasks.map(t => [t.uuid, t])`
keeps the last entry for a duplicated uuid. -/
def taskByUuid (tasks : List BaseTask) (u : String) : Option BaseTask :=
  tasks.reverse.find? (fun t => t.uuid == u)

/-- The final `.map` body: attach `parentContext` from the child→parent map. -/
def attachContext (tasks : List BaseTask) (ctx : List (String × String))
    (t : BaseTask) : TaskWithContext :=
  { base := t,
    parentContext :=
      match alGet ctx t.uuid with
      | some pu =>
        match taskByUuid tasks pu with
        | some parentTask => some (getDisplayText parentTask.content)
        | none => none
      | none => none }

/-- `deduplicateHierarchy`: hide tasks that act as parents of other tasks in
the list; annotate the surviving children with their parent's display text. -/
def deduplicateHierarchy (tasks : List BaseTask) : List TaskWithContext :=
  if tasks.isEmpty then [] else
  let st := dedupState tasks
  (tasks.filter (fun t => !(st.parents.contains t.uuid))).map
    (attachContext tasks st.childToParent)

/-! ## Snoozed-task list assembly (src/hooks/useSnoozedTasks.ts) -/

/-- The fields of `SnoozedTask` that the sort comparator reads. -/
structure SnoozedTask where
  uuid : String
  content : String
  snoozeUntil : Int
  snoozedAt : Int
  isResurfaced : Bool
deriving DecidableEq

/-- The comparator of `snoozedTasks.sort(...)`: resurfaced before pending,
then by `snoozeUntil` ascending within each group. -/
def snoozeCompare (a b : SnoozedTask) : Int :=
  if a.isResurfaced && !b.isResurfaced then -1
  else if !a.isResurfaced && b.isResurfaced then 1
  else a.snoozeUntil - b.snoozeUntil

/-- The sort of the snoozed list (JS `Array.prototype.sort` is a stable sort
consistent with the comparator). -/
def sortSnoozed (l : List SnoozedTask) : List SnoozedTask :=
  l.mergeSort (fun a b => decide (snoozeCompare a b ≤ 0))

/-! ## Pending-completion tracking (src/hooks/useSnoozedTasks.ts)

`doneTasksRef` maps uuid to `doneAt` (the tracked `content` plays no role in
the sweeping logic and is omitted).  A DONE-looking block is recorded once
and the existing entry is never refreshed; a block seen active again is
dropped; the sweep removes the two snooze properties of every entry older
than the 5000 ms grace period and deletes the entry. -/

/-- Record a DONE block in the pending-completion map if not already
tracked. -/
def trackDone (m : List (String × Int)) (u : String) (now : Int) :
    List (String × Int) :=
  if (m.find? (fun e => e.1 == u)).isSome then m else m ++ [(u, now)]

/-- Drop a block from the pending-completion map (status became active
again). -/
def untrackDone (m : List (String × Int)) (u : String) : List (String × Int) :=
  m.filter (fun e => !(e.1 == u))

/-- One sweep over the pending-completion map: entries at least 5000 ms old
are deleted, emitting the two `removeBlockProperty` calls
(`snoozed-until`, then `snoozed-at`) for each. -/
def sweepDone : List (String × Int) → Int → List (String × Int) × List (String × String)
  | [], _ => ([], [])
  | e :: rest, now =>
    if now - e.2 ≥ 5000 then
      ((sweepDone rest now).1,
        (e.1, "snoozed-until") :: (e.1, "snoozed-at") :: (sweepDone rest now).2)
    else
      (e :: (sweepDone rest now).1, (sweepDone rest now).2)

/-! # Theorems -/

/-- **C1** (corrected): `isResurfaced` compares with strict `<`: a snooze
deadline 1 ms in the past is resurfaced, 1 ms in the future is not, and a
deadline exactly equal to the current time is **not** resurfaced (the claim's
"exactly now is resurfaced" contradicts the strict comparison). -/
theorem claim1_resurfaced_boundary (now createdAt : Int) :
    isResurfaced ⟨now - 1, createdAt⟩ now = true
    ∧ isResurfaced ⟨now + 1, createdAt⟩ now = false
    ∧ isResurfaced ⟨now, createdAt⟩ now = false := by
  refine ⟨?_, ?_, ?_⟩ <;> simp [isResurfaced]

/-- **C1** counterexample: at `until = now` exactly, the task is not
resurfaced, contradicting the claim's boundary case. -/
theorem claim1_counterexample : ¬ isResurfaced ⟨0, 0⟩ 0 = true := by decide

/-- **C2** counterexample: snoozing "2h" at 10:00 does give
`snoozeUntil` = 12:00, but at 11:59 the pending label is not "in 1h" and at
12:01 the resurfaced label is not "Resurfaced 1m ago" (both times fall into
the `≤ 1 minute` bucket of `formatRelativeDate`, which yields "now").
Times are ms from local midnight: 10:00 = 36000000, 11:59 = 43140000,
12:00 = 43200000, 12:01 = 43260000. -/
theorem claim2_counterexample :
    parseSnoozeInput (fun _ => none) "2h" 36000000 = some 43200000
    ∧ getSnoozeDisplayText ⟨43200000, 36000000⟩ 43140000 ≠ "in 1h"
    ∧ getSnoozeDisplayText ⟨43200000, 36000000⟩ 43260000 ≠ "Resurfaced 1m ago" :=
  ⟨by decide, by decide, by decide⟩

/-- **C2** (corrected): snoozing "2h" at 10:00 yields `snoozeUntil` = 12:00
the same day; at 11:59 the task is still pending and its display label is
"now"; at 12:01 it is resurfaced and its label is "Resurfaced now". -/
theorem claim2_snooze_two_hours :
    parseSnoozeInput (fun _ => none) "2h" 36000000 = some 43200000
    ∧ isResurfaced ⟨43200000, 36000000⟩ 43140000 = false
    ∧ getSnoozeDisplayText ⟨43200000, 36000000⟩ 43140000 = "now"
    ∧ isResurfaced ⟨43200000, 36000000⟩ 43260000 = true
    ∧ getSnoozeDisplayText ⟨43200000, 36000000⟩ 43260000 = "Resurfaced now" :=
  ⟨by decide, by decide, by decide, by decide, by decide⟩

/-- **C8** (confirmed): `compareWaitingTasks` orders by priority first; on a
priority tie it compares scheduled dates ascending, an unscheduled task sorts
after a scheduled one, and two unscheduled tasks compare equal. -/
theorem claim8_compare_waiting (a b : String) :
    (comparePriority a b ≠ 0 → compareWaitingTasks a b = comparePriority a b)
    ∧ (comparePriority a b = 0 →
        (∀ x y, parseScheduledDate a = some x → parseScheduledDate b = some y →
          compareWaitingTasks a b = x - y)
        ∧ ((parseScheduledDate a).isSome → parseScheduledDate b = none →
            compareWaitingTasks a b < 0)
        ∧ (parseScheduledDate a = none → (parseScheduledDate b).isSome →
            compareWaitingTasks a b > 0)
        ∧ (parseScheduledDate a = none → parseScheduledDate b = none →
            compareWaitingTasks a b = 0)) := by
  constructor
  · intro h
    simp [compareWaitingTasks, h]
  · intro h
    refine ⟨?_, ?_, ?_, ?_⟩
    · intro x y hx hy
      simp [compareWaitingTasks, h, compareScheduledDate, hx, hy]
    · intro hx hy
      rcases Option.isSome_iff_exists.mp hx with ⟨x, hx'⟩
      simp [compareWaitingTasks, h, compareScheduledDate, hx', hy]
    · intro hx hy
      rcases Option.isSome_iff_exists.mp hy with ⟨y, hy'⟩
      simp [compareWaitingTasks, h, compareScheduledDate, hx, hy']
    · intro hx hy
      simp [compareWaitingTasks, h, compareScheduledDate, hx, hy]

/-- **C8** witness: two WAITING tasks tied on priority, one with
`SCHEDULED: <2026-01-20 Tue 09:00>` and one without — the scheduled one
sorts first. -/
theorem claim8_witness :
    compareWaitingTasks "WAITING [#A] x SCHEDULED: <2026-01-20 Tue 09:00>"
      "WAITING [#A] y" < 0 :=
  ((claim8_compare_waiting "WAITING [#A] x SCHEDULED: <2026-01-20 Tue 09:00>"
      "WAITING [#A] y").2 (by decide)).2.1 (by decide) (by decide)

/-- **C9** (corrected): the elapsed time is `now - start` of the last open
clock entry, or 0 when none is open; an "open" entry is one whose timestamp
is not followed (after optional whitespace) by `--` — the lookahead does not
require a full `--[timestamp]` range.  Concrete cases: a lone entry is open;
of several entries the last open one wins; an entry closed by a
`--[timestamp]` range is skipped. -/
theorem claim9_clock_elapsed :
    (∀ content now, getElapsedTimeFromContent content now =
      match getActiveClockStartTime content with
      | none => 0
      | some s => now - s)
    ∧ (∀ content, getActiveClockStartTime content = (clockMatches content).getLast?)
    ∧ getActiveClockStartTime "CLOCK: [2024-01-19 Fri 10:00]"
        = some (newDateMs 2024 0 19 10 0 0)
    ∧ getActiveClockStartTime ":LOGBOOK:\nCLOCK: [2024-01-19 Fri 10:30]--[2024-01-19 Fri 10:45] => 00:15:00\nCLOCK: [2024-01-19 Fri 11:00]\n:END:"
        = some (newDateMs 2024 0 19 11 0 0)
    ∧ getActiveClockStartTime "CLOCK: [2024-01-19 Fri 10:30]--[2024-01-19 Fri 10:45] => 00:15:00"
        = none
    ∧ getElapsedTimeFromContent "CLOCK: [2024-01-19 Fri 10:00]"
        (newDateMs 2024 0 19 10 30 0) = 1800000 :=
  ⟨fun _ _ => rfl, fun _ => rfl, by decide, by decide, by decide, by decide⟩

/-- **C9** counterexample: `CLOCK: [2024-01-19 Fri 10:00]--` is not followed
by a `--[timestamp]` *range*, so by the claim the entry is open and its start
time should be returned; the code's `(?!\s*--)` lookahead nevertheless
rejects it and yields null, while the same entry without the trailing `--` is
returned. -/
theorem claim9_counterexample :
    getActiveClockStartTime "CLOCK: [2024-01-19 Fri 10:00]--" = none
    ∧ getActiveClockStartTime "CLOCK: [2024-01-19 Fri 10:00]"
        = some (newDateMs 2024 0 19 10 0 0) :=
  ⟨by decide, by decide⟩


theorem sweepDone_fst_sublist (m : List (String × Int)) (now : Int) :
    ((sweepDone m now).1).Sublist m := by
  induction m with
  | nil => simp [sweepDone]
  | cons e rest ih =>
    by_cases h : now - e.2 ≥ 5000
    · simp only [sweepDone, if_pos h]
      exact ih.cons e
    · simp only [sweepDone, if_neg h]
      exact ih.cons₂ e

theorem sweepDone_count_keyFree (m : List (String × Int)) (now : Int) (u k : String)
    (h : ∀ e ∈ m, e.1 ≠ u) :
    ((sweepDone m now).2).count (u, k) = 0 := by
  induction m with
  | nil => simp [sweepDone]
  | cons e rest ih =>
    have he : e.1 ≠ u := h e (by simp)
    have ih' := ih (fun e' he' => h e' (List.mem_cons_of_mem e he'))
    by_cases hc : now - e.2 ≥ 5000
    · simp only [sweepDone, if_pos hc]
      simp [List.count_cons, ih', Prod.ext_iff, he]
    · simpa only [sweepDone, if_neg hc] using ih'

theorem sweepDone_keep_keyFree (m : List (String × Int)) (now : Int) (u : String)
    (h : ∀ e ∈ m, e.1 ≠ u) :
    ∀ e ∈ (sweepDone m now).1, e.1 ≠ u :=
  fun e he => h e ((sweepDone_fst_sublist m now).mem he)

theorem trackDone_mem (m : List (String × Int)) (u : String) (t : Int)
    (hmem : (u, t) ∈ m) (now' : Int) : trackDone m u now' = m := by
  have h : (m.find? (fun e => e.1 == u)).isSome = true :=
    List.find?_isSome.mpr ⟨(u, t), hmem, by simp⟩
  simp [trackDone, h]

/-- **C6** (confirmed): in the pending-completion map, an entry tracked for
at most 4999 ms is kept by a sweep and loses no annotation; an entry tracked
for 5000 ms or more is removed, its two snooze annotations
(`snoozed-until`, `snoozed-at`) are each emitted exactly once, and a second
sweep emits nothing for it; re-observing an already-tracked done id leaves
the map (and hence the grace timer) untouched. -/
theorem claim6_grace_period (m : List (String × Int)) (u : String) (t now now2 : Int)
    (hmem : (u, t) ∈ m) (hnd : (m.map Prod.fst).Nodup) :
    (now - t ≤ 4999 → (u, t) ∈ (sweepDone m now).1
       ∧ ((sweepDone m now).2).count (u, "snoozed-until") = 0
       ∧ ((sweepDone m now).2).count (u, "snoozed-at") = 0)
    ∧ (now - t ≥ 5000 → (∀ t', (u, t') ∉ (sweepDone m now).1)
       ∧ ((sweepDone m now).2).count (u, "snoozed-until") = 1
       ∧ ((sweepDone m now).2).count (u, "snoozed-at") = 1
       ∧ ((sweepDone (sweepDone m now).1 now2).2).count (u, "snoozed-until") = 0
       ∧ ((sweepDone (sweepDone m now).1 now2).2).count (u, "snoozed-at") = 0)
    ∧ (∀ now', trackDone m u now' = m) := by
  refine ⟨?_, ?_, fun now' => trackDone_mem m u t hmem now'⟩
  · -- not yet expired: kept, nothing removed
    intro hle
    induction m with
    | nil => cases hmem
    | cons e rest ih =>
      have hnd' : (rest.map Prod.fst).Nodup := (List.nodup_cons.mp hnd).2
      have hndh : e.1 ∉ rest.map Prod.fst := (List.nodup_cons.mp hnd).1
      rcases List.mem_cons.mp hmem with heq | hrest
      · subst heq
        have hkf : ∀ e' ∈ rest, e'.1 ≠ u := by
          intro e' he' hne
          exact hndh (by simpa [hne] using List.mem_map_of_mem Prod.fst he')
        have hc : ¬ (now - t ≥ 5000) := by omega
        simp only [sweepDone, if_neg hc]
        exact ⟨by simp, by
          simpa using sweepDone_count_keyFree rest now u "snoozed-until" hkf, by
          simpa using sweepDone_count_keyFree rest now u "snoozed-at" hkf⟩
      · have he : e.1 ≠ u := fun hne =>
          hndh (by simpa [hne] using List.mem_map_of_mem Prod.fst hrest)
        have ihr := ih hrest hnd'
        by_cases hc : now - e.2 ≥ 5000
        · simp only [sweepDone, if_pos hc]
          refine ⟨ihr.1, ?_, ?_⟩ <;>
            simp [List.count_cons, ihr.2.1, ihr.2.2, Prod.ext_iff, he]
        · simp only [sweepDone, if_neg hc]
          exact ⟨List.mem_cons_of_mem e ihr.1, ihr.2.1, ihr.2.2⟩
  · -- expired: removed exactly once, never again
    intro hge
    induction m with
    | nil => cases hmem
    | cons e rest ih =>
      have hnd' : (rest.map Prod.fst).Nodup := (List.nodup_cons.mp hnd).2
      have hndh : e.1 ∉ rest.map Prod.fst := (List.nodup_cons.mp hnd).1
      rcases List.mem_cons.mp hmem with heq | hrest
      · subst heq
        have hkf : ∀ e' ∈ rest, e'.1 ≠ u := by
          intro e' he' hne
          exact hndh (by simpa [hne] using List.mem_map_of_mem Prod.fst he')
        simp only [sweepDone, if_pos hge]
        have hkeep := sweepDone_keep_keyFree rest now u hkf
        refine ⟨fun t' ht' => hkeep (u, t') ht' rfl, ?_, ?_, ?_, ?_⟩
        · simp [List.count_cons, sweepDone_count_keyFree rest now u "snoozed-until" hkf]
        · simp [List.count_cons, sweepDone_count_keyFree rest now u "snoozed-at" hkf]
        · exact sweepDone_count_keyFree _ now2 u _ hkeep
        · exact sweepDone_count_keyFree _ now2 u _ hkeep
      · have he : e.1 ≠ u := fun hne =>
          hndh (by simpa [hne] using List.mem_map_of_mem Prod.fst hrest)
        have ihr := ih hrest hnd'
        by_cases hc : now - e.2 ≥ 5000
        · simp only [sweepDone, if_pos hc]
          refine ⟨?_, ?_, ?_, ihr.2.2.2.1, ihr.2.2.2.2⟩
          · exact ihr.1
          · simp [List.count_cons, ihr.2.1, Prod.ext_iff, he]
          · simp [List.count_cons, ihr.2.2.1, Prod.ext_iff, he]
        · simp only [sweepDone, if_neg hc]
          refine ⟨?_, ihr.2.1, ihr.2.2.1, ?_, ?_⟩
          · intro t' ht'
            rcases List.mem_cons.mp ht' with h' | h'
            · exact he (congrArg Prod.fst h'.symm)
            · exact ihr.1 t' h'
          · by_cases hc2 : now2 - e.2 ≥ 5000
            · simp only [sweepDone, if_pos hc2]
              simp [List.count_cons, ihr.2.2.2.1, Prod.ext_iff, he]
            · simpa only [sweepDone, if_neg hc2] using ihr.2.2.2.1
          · by_cases hc2 : now2 - e.2 ≥ 5000
            · simp only [sweepDone, if_pos hc2]
              simp [List.count_cons, ihr.2.2.2.2, Prod.ext_iff, he]
            · simpa only [sweepDone, if_neg hc2] using ihr.2.2.2.2


/-- **C6** witness: a single tracked entry, swept at exactly the 5000 ms
boundary and kept at 4999 ms. -/
theorem claim6_witness :
    ("a", (0 : Int)) ∈ (sweepDone [("a", (0 : Int))] 4999).1
    ∧ (∀ t', ("a", t') ∉ (sweepDone [("a", (0 : Int))] 5000).1)
    ∧ ((sweepDone [("a", (0 : Int))] 5000).2).count ("a", "snoozed-until") = 1
    ∧ ((sweepDone [("a", (0 : Int))] 5000).2).count ("a", "snoozed-at") = 1
    ∧ trackDone [("a", (0 : Int))] "a" 7777 = [("a", (0 : Int))] :=
  ⟨((claim6_grace_period [("a", 0)] "a" 0 4999 0 (by decide) (by decide)).1 (by decide)).1,
   ((claim6_grace_period [("a", 0)] "a" 0 5000 9999 (by decide) (by decide)).2.1 (by decide)).1,
   ((claim6_grace_period [("a", 0)] "a" 0 5000 9999 (by decide) (by decide)).2.1 (by decide)).2.1,
   ((claim6_grace_period [("a", 0)] "a" 0 5000 9999 (by decide) (by decide)).2.1 (by decide)).2.2.1,
   (claim6_grace_period [("a", 0)] "a" 0 5000 9999 (by decide) (by decide)).2.2 7777⟩


theorem snoozeLe_trans (a b c : SnoozedTask) :
    decide (snoozeCompare a b ≤ 0) = true → decide (snoozeCompare b c ≤ 0) = true →
    decide (snoozeCompare a c ≤ 0) = true := by
  intro hab hbc
  rw [decide_eq_true_eq] at *
  cases ha : a.isResurfaced <;> cases hb : b.isResurfaced <;> cases hc : c.isResurfaced <;>
    simp [snoozeCompare, ha, hb, hc] at * <;> omega

theorem snoozeLe_total (a b : SnoozedTask) :
    (decide (snoozeCompare a b ≤ 0) || decide (snoozeCompare b a ≤ 0)) = true := by
  rcases le_or_lt (snoozeCompare a b) 0 with h | h
  · simp [h]
  · have : snoozeCompare b a ≤ 0 := by
      cases ha : a.isResurfaced <;> cases hb : b.isResurfaced <;>
        simp [snoozeCompare, ha, hb] at * <;> omega
    simp [this]

/-- **C7** (confirmed): in the sorted snoozed list every resurfaced task
precedes every pending task, and within each group tasks are ordered by
ascending `snoozeUntil` (oldest-expired first among resurfaced, soonest-due
first among pending). -/
theorem claim7_snoozed_sort_order (l : List SnoozedTask) :
    (sortSnoozed l).Pairwise (fun a b =>
      (b.isResurfaced = true → a.isResurfaced = true)
      ∧ (a.isResurfaced = b.isResurfaced → a.snoozeUntil ≤ b.snoozeUntil)) := by
  have hs := List.sorted_mergeSort snoozeLe_trans snoozeLe_total l
  refine hs.imp ?_
  intro a b hab
  have h : snoozeCompare a b ≤ 0 := by simpa using hab
  constructor
  · intro hb
    by_contra ha'
    have ha : a.isResurfaced = false := by
      cases hx : a.isResurfaced
      · rfl
      · exact absurd hx ha'
    simp [snoozeCompare, ha, hb] at h
  · intro heq
    cases ha : a.isResurfaced <;> rw [ha] at heq <;>
      simp [snoozeCompare, ha, ← heq] at h <;> omega


theorem mem_setInsert (s : List String) (x y : String) :
    y ∈ setInsert s x ↔ y ∈ s ∨ x = y := by
  cases hc : s.contains x with
  | true =>
    have hx : x ∈ s := List.elem_iff.mp hc
    simp only [setInsert, hc, if_true]
    exact ⟨Or.inl, fun h => h.elim id (fun h' => h' ▸ hx)⟩
  | false =>
    have hx : x ∉ s := by simpa using hc
    simp [setInsert, hc, hx]
    exact ⟨fun h => h.elim Or.inl (fun h2 => Or.inr h2.symm),
           fun h => h.elim Or.inl (fun h2 => Or.inr h2.symm)⟩

theorem refStep_parents (us : List String) (t : BaseTask) (s : DedupState) (r x : String) :
    x ∈ (refStep us t s r).parents ↔
      x ∈ s.parents ∨ (t.uuid = x ∧ r ∈ us) := by
  unfold refStep
  cases hc : us.contains r with
  | false =>
    have hc2 : r ∉ us := by simpa using hc
    simp [hc2]
  | true =>
    have hc2 : r ∈ us := List.elem_iff.mp hc
    simp [mem_setInsert, hc2]

theorem refFold_parents (us : List String) (t : BaseTask) (refs : List String)
    (s : DedupState) (x : String) :
    x ∈ (refs.foldl (refStep us t) s).parents ↔
      x ∈ s.parents ∨ (t.uuid = x ∧ ∃ r ∈ refs, r ∈ us) := by
  induction refs generalizing s with
  | nil => simp
  | cons r rs ih =>
    simp only [List.foldl_cons]
    rw [ih, refStep_parents]
    simp only [List.exists_mem_cons_iff]
    tauto

theorem trigTree_iff (us : List String) (t : BaseTask) (x : String) :
    trigTree us t x = true ↔ t.parentUuid = some x ∧ x ∈ us := by
  unfold trigTree
  rcases hpu : t.parentUuid with _ | pu
  · simp
  · simp only [Bool.and_eq_true, beq_iff_eq, Option.some.injEq]
    exact ⟨fun ⟨h1, h2⟩ => ⟨h1, h1 ▸ List.elem_iff.mp h2⟩,
           fun ⟨h1, h2⟩ => ⟨h1, List.elem_iff.mpr (h1 ▸ h2)⟩⟩

theorem trigRef_iff (us : List String) (t : BaseTask) (x : String) :
    trigRef us t x = true ↔
      t.uuid = x ∧ ∃ r ∈ extractBlockReferences t.content, r ∈ us := by
  unfold trigRef
  simp [List.any_eq_true]

theorem trigParentRef_iff (us : List String) (t : BaseTask) (x : String) :
    trigParentRef us t x = true ↔
      ∃ pc, t.parentContent = some pc ∧ parentIsTask us t = false
        ∧ isOnlyBlockReference pc = some x ∧ x ∈ us := by
  unfold trigParentRef
  rcases hpc : t.parentContent with _ | pc
  · simp
  · simp only []
    cases hpt : parentIsTask us t with
    | true => simp
    | false =>
      rcases hro : isOnlyBlockReference pc with _ | r
      · simp [hro]
      · simp only [hro, Bool.not_false, Bool.true_and, Bool.and_eq_true, beq_iff_eq,
          Option.some.injEq, exists_eq_left', eq_self_iff_true, true_and]
        constructor
        · rintro ⟨rfl, h2⟩
          exact ⟨rfl, List.elem_iff.mp h2⟩
        · rintro ⟨rfl, h2⟩
          exact ⟨rfl, List.elem_iff.mpr h2⟩

theorem ruleTree_parents (us : List String) (st : DedupState) (t : BaseTask) (x : String) :
    x ∈ (ruleTree us st t).parents ↔
      x ∈ st.parents ∨ (t.parentUuid = some x ∧ x ∈ us) := by
  unfold ruleTree
  rcases hpu : t.parentUuid with _ | pu
  · simp
  · simp only []
    cases hcp : us.contains pu with
    | false =>
      have hc2 : pu ∉ us := by simpa using hcp
      simp only [Bool.false_eq_true, if_false, Option.some.injEq]
      constructor
      · exact Or.inl
      · rintro (h | ⟨rfl, h2⟩)
        · exact h
        · exact absurd h2 hc2
    | true =>
      have hc2 : pu ∈ us := List.elem_iff.mp hcp
      simp only [if_true, mem_setInsert, Option.some.injEq]
      constructor
      · rintro (h | rfl)
        · exact Or.inl h
        · exact Or.inr ⟨rfl, hc2⟩
      · rintro (h | ⟨rfl, _⟩)
        · exact Or.inl h
        · exact Or.inr rfl

theorem ruleParentRef_parents (us : List String) (st : DedupState) (t : BaseTask)
    (x : String) :
    x ∈ (ruleParentRef us st t).parents ↔
      x ∈ st.parents ∨ (∃ pc, t.parentContent = some pc ∧ parentIsTask us t = false
        ∧ isOnlyBlockReference pc = some x ∧ x ∈ us) := by
  unfold ruleParentRef
  rcases hpc : t.parentContent with _ | pc
  · simp
  · simp only []
    cases hpt : parentIsTask us t with
    | true => simp
    | false =>
      rcases hro : isOnlyBlockReference pc with _ | r
      · simp [hro]
      · simp only [hro, Bool.false_eq_true, if_false, Option.some.injEq, exists_eq_left',
          eq_self_iff_true, true_and]
        cases hcr : us.contains r with
        | false =>
          have hc2 : r ∉ us := by simpa using hcr
          simp only [Bool.false_eq_true, if_false]
          constructor
          · exact Or.inl
          · rintro (h | ⟨rfl, h3⟩)
            · exact h
            · exact absurd h3 hc2
        | true =>
          have hc2 : r ∈ us := List.elem_iff.mp hcr
          simp only [if_true, mem_setInsert]
          constructor
          · rintro (h | rfl)
            · exact Or.inl h
            · exact Or.inr ⟨rfl, hc2⟩
          · rintro (h | ⟨rfl, _⟩)
            · exact Or.inl h
            · exact Or.inr rfl

theorem processTask_parents (us : List String) (st : DedupState) (t : BaseTask)
    (x : String) :
    x ∈ (processTask us st t).parents ↔ x ∈ st.parents ∨ hideTrigger us t x = true := by
  unfold processTask hideTrigger
  rw [refFold_parents, ruleParentRef_parents, ruleTree_parents]
  simp only [Bool.or_eq_true, trigTree_iff, trigRef_iff, trigParentRef_iff]
  constructor
  · rintro (((h | h) | h) | h)
    · exact Or.inl h
    · exact Or.inr (Or.inl (Or.inl h))
    · exact Or.inr (Or.inr h)
    · exact Or.inr (Or.inl (Or.inr h))
  · rintro (h | ((h | h) | h))
    · exact Or.inl (Or.inl (Or.inl h))
    · exact Or.inl (Or.inl (Or.inr h))
    · exact Or.inr h
    · exact Or.inl (Or.inr h)

theorem foldP_parents (us : List String) (ts : List BaseTask) (st : DedupState)
    (x : String) :
    x ∈ (ts.foldl (processTask us) st).parents ↔
      x ∈ st.parents ∨ ∃ t ∈ ts, hideTrigger us t x = true := by
  induction ts generalizing st with
  | nil => simp
  | cons t ts' ih =>
    simp only [List.foldl_cons]
    rw [ih, processTask_parents]
    simp only [List.exists_mem_cons_iff]
    tauto

theorem dedup_parents_contains (tasks : List BaseTask) (x : String) :
    (dedupState tasks).parents.contains x = specHidden tasks x := by
  have h : x ∈ (dedupState tasks).parents ↔ specHidden tasks x = true := by
    unfold dedupState specHidden dedupUuids
    rw [foldP_parents]
    simp [List.any_eq_true]
  cases hs : specHidden tasks x with
  | false =>
    cases hcx : (dedupState tasks).parents.contains x with
    | false => rfl
    | true => exact absurd (h.mp (List.elem_iff.mp hcx)) (by simp [hs])
  | true =>
    cases hcx : (dedupState tasks).parents.contains x with
    | false =>
      have hnx : x ∉ (dedupState tasks).parents := by simpa using hcx
      exact absurd (h.mpr hs) hnx
    | true => rfl



theorem dedup_eq (tasks : List BaseTask) :
    deduplicateHierarchy tasks
      = (tasks.filter (fun t => !((dedupState tasks).parents.contains t.uuid))).map
          (attachContext tasks (dedupState tasks).childToParent) := by
  cases tasks with
  | nil => rfl
  | cons t ts => rfl

/-- The output's base tasks are exactly the input filtered by the computed
parent-to-hide set. -/
theorem dedup_map_base (tasks : List BaseTask) :
    (deduplicateHierarchy tasks).map (fun o => o.base)
      = tasks.filter (fun t => !((dedupState tasks).parents.contains t.uuid)) := by
  rw [dedup_eq tasks, List.map_map]
  have hco : ((fun o : TaskWithContext => o.base)
      ∘ attachContext tasks (dedupState tasks).childToParent) = fun t => t := rfl
  rw [hco]
  exact List.map_id' _

/-- **C10** (confirmed): deduplication only removes the hidden parents: the
bases of the output form exactly the input filtered by the computed
parent-to-hide set (hence the relative order is preserved and every output
task agrees with its input task on every field other than the added
`parentContext`), and in particular they form a sublist of the input. -/
theorem claim10_dedup_frame (tasks : List BaseTask) :
    ((deduplicateHierarchy tasks).map (fun o => o.base)
       = tasks.filter (fun t => !((dedupState tasks).parents.contains t.uuid)))
    ∧ ((deduplicateHierarchy tasks).map (fun o => o.base)).Sublist tasks :=
  ⟨dedup_map_base tasks, dedup_map_base tasks ▸ List.filter_sublist tasks⟩

/-- **C3** (confirmed): every task surviving deduplication has a uuid outside
the computed parent-to-hide set, and no surviving task's tree `parentUuid`
is the uuid of another surviving task. -/
theorem claim3_dedup_invariant (tasks : List BaseTask) (o : TaskWithContext)
    (ho : o ∈ deduplicateHierarchy tasks) :
    (dedupState tasks).parents.contains o.base.uuid = false
    ∧ ∀ o' ∈ deduplicateHierarchy tasks, o.base.parentUuid ≠ some o'.base.uuid := by
  rw [dedup_eq] at ho
  rcases List.mem_map.mp ho with ⟨t, htf, rfl⟩
  rcases List.mem_filter.mp htf with ⟨htm, htb⟩
  constructor
  · simpa using htb
  · intro o' ho' hpar
    rw [dedup_eq] at ho'
    rcases List.mem_map.mp ho' with ⟨t', htf', rfl⟩
    rcases List.mem_filter.mp htf' with ⟨htm', htb'⟩
    have hu : t'.uuid ∈ dedupUuids tasks := List.mem_map_of_mem _ htm'
    have htrig : hideTrigger (dedupUuids tasks) t t'.uuid = true := by
      unfold hideTrigger
      have hp : (trigTree (dedupUuids tasks) t t'.uuid) = true :=
        (trigTree_iff _ t _).mpr ⟨hpar, hu⟩
      simp [hp]
    have hin : t'.uuid ∈ (dedupState tasks).parents := by
      unfold dedupState
      rw [foldP_parents]
      exact Or.inr ⟨t, htm, htrig⟩
    simp at htb'
    exact htb' hin


/-- **C3** witness: the two-task scenario (child X under parent Y) instantiating
the invariant. -/
theorem claim3_witness :
    (dedupState [⟨"Y", "TODO parent task", none, none⟩,
        ⟨"X", "TODO child", some "Y", none⟩]).parents.contains
      (⟨⟨"X", "TODO child", some "Y", none⟩, some "parent task"⟩ :
        TaskWithContext).base.uuid = false :=
  (claim3_dedup_invariant
    [⟨"Y", "TODO parent task", none, none⟩, ⟨"X", "TODO child", some "Y", none⟩]
    ⟨⟨"X", "TODO child", some "Y", none⟩, some "parent task"⟩ (by decide)).1

theorem alSet_mem_values (m : List (String × String)) (k v : String)
    (p : String × String) (hp : p ∈ alSet m k v) : p ∈ m ∨ p.2 = v := by
  unfold alSet at hp
  cases hb : alHas m k with
  | true =>
    rw [if_pos hb] at hp
    rcases List.mem_map.mp hp with ⟨q, hq, hqe⟩
    by_cases hqk : q.1 == k
    · rw [if_pos hqk] at hqe
      exact Or.inr (by rw [← hqe])
    · rw [if_neg hqk] at hqe
      exact Or.inl (hqe ▸ hq)
  | false =>
    rw [if_neg (by simp [hb])] at hp
    rcases List.mem_append.mp hp with h | h
    · exact Or.inl h
    · rcases List.mem_singleton.mp h with rfl
      exact Or.inr rfl

theorem refStep_ctx (us : List String) (t : BaseTask) (s : DedupState) (r : String)
    (hs : ∀ p ∈ s.childToParent, p.2 ∈ us) (ht : t.uuid ∈ us) :
    ∀ p ∈ (refStep us t s r).childToParent, p.2 ∈ us := by
  unfold refStep
  cases hc : us.contains r with
  | false =>
    rw [if_neg (by simp [hc])]
    exact hs
  | true =>
    rw [if_pos rfl]
    intro p hp
    simp only at hp
    by_cases hh : alHas s.childToParent r
    · rw [if_pos hh] at hp
      exact hs p hp
    · rw [if_neg hh] at hp
      rcases alSet_mem_values _ _ _ _ hp with h | h
      · exact hs p h
      · exact h ▸ ht

theorem ruleTree_ctx (us : List String) (st : DedupState) (t : BaseTask)
    (hs : ∀ p ∈ st.childToParent, p.2 ∈ us) :
    ∀ p ∈ (ruleTree us st t).childToParent, p.2 ∈ us := by
  unfold ruleTree
  rcases hpu : t.parentUuid with _ | pu
  · exact hs
  · simp only []
    cases hcp : us.contains pu with
    | false => rw [if_neg (by simp [hcp])]; exact hs
    | true =>
      rw [if_pos rfl]
      intro p hp
      simp only at hp
      rcases alSet_mem_values _ _ _ _ hp with h | h
      · exact hs p h
      · exact h ▸ List.elem_iff.mp hcp

theorem ruleParentRef_ctx (us : List String) (st : DedupState) (t : BaseTask)
    (hs : ∀ p ∈ st.childToParent, p.2 ∈ us) :
    ∀ p ∈ (ruleParentRef us st t).childToParent, p.2 ∈ us := by
  unfold ruleParentRef
  rcases hpc : t.parentContent with _ | pc
  · exact hs
  · simp only []
    cases hpt : parentIsTask us t with
    | true => exact hs
    | false =>
      rw [if_neg (by simp)]
      rcases hro : isOnlyBlockReference pc with _ | r
      · exact hs
      · simp only []
        cases hcr : us.contains r with
        | false => rw [if_neg (by simp)]; exact hs
        | true =>
          rw [if_pos rfl]
          intro p hp
          simp only at hp
          by_cases hh : alHas st.childToParent t.uuid
          · rw [if_pos hh] at hp
            exact hs p hp
          · rw [if_neg hh] at hp
            rcases alSet_mem_values _ _ _ _ hp with h | h
            · exact hs p h
            · exact h ▸ List.elem_iff.mp hcr

theorem refFold_ctx (us : List String) (t : BaseTask) (refs : List String)
    (s : DedupState) (hs : ∀ p ∈ s.childToParent, p.2 ∈ us) (ht : t.uuid ∈ us) :
    ∀ p ∈ (refs.foldl (refStep us t) s).childToParent, p.2 ∈ us := by
  induction refs generalizing s with
  | nil => exact hs
  | cons r rs ih =>
    simp only [List.foldl_cons]
    exact ih _ (refStep_ctx us t s r hs ht)

theorem processTask_ctx (us : List String) (st : DedupState) (t : BaseTask)
    (hs : ∀ p ∈ st.childToParent, p.2 ∈ us) (ht : t.uuid ∈ us) :
    ∀ p ∈ (processTask us st t).childToParent, p.2 ∈ us := by
  unfold processTask
  exact refFold_ctx us t _ _ (ruleParentRef_ctx us _ t (ruleTree_ctx us st t hs)) ht

theorem foldP_ctx (us : List String) (ts : List BaseTask) (st : DedupState)
    (hs : ∀ p ∈ st.childToParent, p.2 ∈ us) (hts : ∀ t ∈ ts, t.uuid ∈ us) :
    ∀ p ∈ (ts.foldl (processTask us) st).childToParent, p.2 ∈ us := by
  induction ts generalizing st with
  | nil => exact hs
  | cons t ts' ih =>
    simp only [List.foldl_cons]
    exact ih _ (processTask_ctx us st t hs (hts t (by simp)))
      (fun t' ht' => hts t' (List.mem_cons_of_mem t ht'))

theorem dedup_ctx_values (tasks : List BaseTask) :
    ∀ p ∈ (dedupState tasks).childToParent, p.2 ∈ dedupUuids tasks := by
  unfold dedupState
  exact foldP_ctx _ tasks ⟨[], []⟩ (by simp)
    (fun t ht => List.mem_map_of_mem _ ht)

theorem alGet_mem (m : List (String × String)) (k v : String)
    (h : alGet m k = some v) : (k, v) ∈ m := by
  unfold alGet at h
  cases hf : m.find? (fun p => p.1 == k) with
  | none => rw [hf] at h; cases h
  | some p =>
    rw [hf] at h
    have hp : p.1 = k := by simpa using List.find?_some hf
    have hm := List.mem_of_find?_eq_some hf
    have hv : p.2 = v := by simpa using h
    have : (k, v) = p := by
      rw [← hp, ← hv]
    exact this ▸ hm

theorem taskByUuid_mem (tasks : List BaseTask) (u : String)
    (hu : u ∈ dedupUuids tasks) :
    ∃ p, taskByUuid tasks u = some p ∧ p ∈ tasks ∧ p.uuid = u := by
  unfold taskByUuid
  rcases List.mem_map.mp hu with ⟨t, ht, hteq⟩
  have hfs : (tasks.reverse.find? (fun t' => t'.uuid == u)).isSome :=
    List.find?_isSome.mpr ⟨t, List.mem_reverse.mpr ht, by simp [hteq]⟩
  rcases Option.isSome_iff_exists.mp hfs with ⟨p, hp⟩
  exact ⟨p, hp, List.mem_reverse.mp (List.mem_of_find?_eq_some hp),
    by simpa using List.find?_some hp⟩



/-- **C5** (confirmed): the reconciler's output is the input filtered by the
spec's three parent-to-hide rules; each output task carries
`parentContext = getDisplayText(parent.content)` for its mapped parent when a
child→parent mapping exists and no context otherwise; and in the concrete
scenario "X has parentUuid Y, Y in the same list" the output drops Y and
keeps X annotated with Y's display text. -/
theorem claim5_dedup_output (tasks : List BaseTask) :
    ((deduplicateHierarchy tasks).map (fun o => o.base)
       = tasks.filter (fun t => !(specHidden tasks t.uuid)))
    ∧ (∀ o ∈ deduplicateHierarchy tasks,
        (alGet (dedupState tasks).childToParent o.base.uuid = none →
          o.parentContext = none)
        ∧ (∀ pu, alGet (dedupState tasks).childToParent o.base.uuid = some pu →
            ∃ p ∈ tasks, p.uuid = pu
              ∧ o.parentContext = some (getDisplayText p.content)))
    ∧ deduplicateHierarchy
        [⟨"Y", "TODO parent task", none, none⟩, ⟨"X", "TODO child", some "Y", none⟩]
      = [⟨⟨"X", "TODO child", some "Y", none⟩, some "parent task"⟩] := by
  refine ⟨?_, ?_, by decide⟩
  · rw [dedup_map_base tasks]
    exact List.filter_congr (fun t _ => by rw [dedup_parents_contains])
  · intro o ho
    rw [dedup_eq] at ho
    rcases List.mem_map.mp ho with ⟨t, htf, rfl⟩
    constructor
    · intro hnone
      simp only [attachContext] at hnone ⊢
      rw [hnone]
    · intro pu hpu
      simp only [attachContext] at hpu ⊢
      have hmem := alGet_mem _ _ _ hpu
      have hv : pu ∈ dedupUuids tasks := dedup_ctx_values tasks _ hmem
      rcases taskByUuid_mem tasks pu hv with ⟨p, hfind, hpm, hpuuid⟩
      refine ⟨p, hpm, hpuuid, ?_⟩
      rw [hpu]
      simp only [hfind]

/-- **C5** witness: in the two-task scenario the surviving child X carries
Y's display text as its inherited context. -/
theorem claim5_witness :
    ∃ p ∈ [(⟨"Y", "TODO parent task", none, none⟩ : BaseTask),
           ⟨"X", "TODO child", some "Y", none⟩], p.uuid = "Y"
      ∧ (⟨⟨"X", "TODO child", some "Y", none⟩, some "parent task"⟩ :
          TaskWithContext).parentContext = some (getDisplayText p.content) :=
  ((claim5_dedup_output [⟨"Y", "TODO parent task", none, none⟩,
      ⟨"X", "TODO child", some "Y", none⟩]).2.1
    ⟨⟨"X", "TODO child", some "Y", none⟩, some "parent task"⟩ (by decide)).2
    "Y" (by decide)


theorem dropWhile_reverse_dropWhile (m : List Char) :
    ((m.dropWhile jsIsWs).reverse.dropWhile jsIsWs).reverse.dropWhile jsIsWs
      = ((m.dropWhile jsIsWs).reverse.dropWhile jsIsWs).reverse := by
  cases her : ((m.dropWhile jsIsWs).reverse.dropWhile jsIsWs).reverse with
  | nil => simp
  | cons a r =>
    have hpre : ((m.dropWhile jsIsWs).reverse.dropWhile jsIsWs).reverse
        <+: m.dropWhile jsIsWs := by
      have hsuf : (m.dropWhile jsIsWs).reverse.dropWhile jsIsWs
          <:+ (m.dropWhile jsIsWs).reverse := List.dropWhile_suffix _
      have h2 := List.reverse_prefix.mpr hsuf
      rwa [List.reverse_reverse] at h2
    rw [her] at hpre
    rcases hpre with ⟨s, hs⟩
    have hda : (m.dropWhile jsIsWs).head? = some a := by
      rw [← hs]; rfl
    have hna : jsIsWs a = false := by
      have h3 := List.head?_dropWhile_not jsIsWs m
      rw [hda] at h3
      exact h3
    rw [List.dropWhile_cons, hna]
    simp

theorem trimChars_idem (l : List Char) : trimChars (trimChars l) = trimChars l := by
  show (((trimChars l).dropWhile jsIsWs).reverse.dropWhile jsIsWs).reverse = trimChars l
  rw [show trimChars l = ((l.dropWhile jsIsWs).reverse.dropWhile jsIsWs).reverse from rfl]
  rw [dropWhile_reverse_dropWhile l, List.reverse_reverse, List.dropWhile_idempotent]

/-- **C4** counterexample: `displayText` is not idempotent on every input:
stripping the leading marker of "NOW NOW x" exposes a second marker, so the
second application strips again. -/
theorem claim4_counterexample :
    ¬ (getDisplayText (getDisplayText "NOW NOW x") = getDisplayText "NOW NOW x") := by
  decide

/-- **C4** (corrected): `displayText` is idempotent on any input whose first
application leaves nothing for the stripping passes to remove (no residual
markers): if the six stripping passes leave `displayText x` unchanged, then a
second application only re-trims, and trimming is idempotent. -/
theorem claim4_displayText_idem (x : String)
    (h : stripPasses (getDisplayText x).data = (getDisplayText x).data) :
    getDisplayText (getDisplayText x) = getDisplayText x := by
  have hy : (getDisplayText x).data = trimChars (stripPasses x.data) := rfl
  show String.mk (trimChars (stripPasses (getDisplayText x).data)) = getDisplayText x
  rw [h, hy, trimChars_idem]
  rfl

/-- **C4** witness: "NOW hello" strips to "hello", on which the passes are
inert, so a second application is the identity. -/
theorem claim4_witness :
    stripPasses (getDisplayText "NOW hello").data = (getDisplayText "NOW hello").data
    ∧ getDisplayText (getDisplayText "NOW hello") = getDisplayText "NOW hello" :=
  ⟨by decide, claim4_displayText_idem "NOW hello" (by decide)⟩

end PowerOfNow
